import Mathlib

/-!
Formal model of the Transcript-Merger core (srt-merge.ts): the structured
sequential merger, the permissive SRT block parser, and the raw-text merger.
JS numbers appearing as cue times may be non-finite (NaN, infinities); a time
is therefore modelled as an optional integer, where none stands for any
non-finite value. The merged cues built by the merger always carry finite
times and a source file index, so they get their own record type.
-/

namespace TranscriptMerger

/-- A typed cue as in the source interface Cue: times are JS numbers that can
be non-finite, modelled as none. -/
structure Cue where
  startMs : Option Int
  endMs : Option Int
  text : String
deriving Repr, DecidableEq

/-- A merged cue as pushed by mergeParsedFilesSequential: both times are
finite and sourceFileIndex is always stamped. -/
structure MCue where
  startMs : Int
  endMs : Int
  text : String
  sourceFileIndex : Nat
deriving Repr, DecidableEq

/-- ParsedFile from the source; the meta field plays no role in merging and
is omitted. -/
structure ParsedFile where
  filename : Option String
  cues : List Cue
deriving Repr, DecidableEq

/-- MergeOptions from the source. perFileOffsetMs models the JS record
together with its hasOwnProperty test; the optional booleans model absent
fields (the source reads sortFinalByStart with a default of false). -/
structure MergeOptions where
  perFileOffsetMs : Nat → Option Int
  useEffectiveEndMs : Option Bool
  sortFinalByStart : Option Bool

structure SequentialMergeResult where
  mergedCues : List MCue
  warnings : List String
  errors : List String
deriving Repr, DecidableEq

/-- Maximum finite endMs of a file, or none when no cue has a finite endMs
(source: the baseEndMs map in mergeParsedFilesSequential). -/
def baseEndMs (pf : ParsedFile) : Option Int :=
  (pf.cues.filterMap (fun c => c.endMs)).max?

/-- The amount added to the running shift after assigning file i its shift
(source: the body of the first loop of mergeParsedFilesSequential). -/
def chosenDuration (opts : MergeOptions) (i : Nat) (pf : ParsedFile) : Int :=
  match opts.perFileOffsetMs i with
  | some off => off
  | none =>
    match baseEndMs pf with
    | some e => e
    | none =>
      match (pf.cues.filterMap (fun c => c.startMs)).min?,
            (pf.cues.filterMap (fun c => c.endMs)).max? with
      | some s, some e => max 0 (e - s)
      | _, _ => 0

/-- The cumulativeShift array of the source, built left to right from a
running shift. -/
def cumulativeShift (opts : MergeOptions) : Nat → Int → List ParsedFile → List Int
  | _, _, [] => []
  | i, run, pf :: rest =>
    run :: cumulativeShift opts (i + 1) (run + chosenDuration opts i pf) rest

def noCuesWarning (i : Nat) : String := "file_" ++ toString i ++ "_no_cues"

def malformedWarning (i : Nat) : String := "file_" ++ toString i ++ "_malformed_cue"

/-- Shift one cue of file i, or none when a time is non-finite (the source
skips such cues). -/
def shiftCue? (i : Nat) (shift : Int) (c : Cue) : Option MCue :=
  match c.startMs, c.endMs with
  | some s, some e => some ⟨s + shift, e + shift, c.text, i⟩
  | _, _ => none

/-- The malformed-cue warnings a file contributes, in cue order. -/
def fileWarnings (i : Nat) (pf : ParsedFile) : List String :=
  pf.cues.filterMap (fun c =>
    match c.startMs, c.endMs with
    | some _, some _ => none
    | _, _ => some (malformedWarning i))

/-- The second loop of mergeParsedFilesSequential: apply each file its shift,
collecting merged cues and per-file warnings. -/
def applyLoop : Nat → List ParsedFile → List Int → List MCue × List String
  | _, [], _ => ([], [])
  | i, pf :: rest, shifts =>
    let shift := shifts.headD 0
    let head : List MCue × List String :=
      if pf.cues.isEmpty then ([], [noCuesWarning i])
      else (pf.cues.filterMap (shiftCue? i shift), fileWarnings i pf)
    let tailR := applyLoop (i + 1) rest shifts.tail
    (head.1 ++ tailR.1, head.2 ++ tailR.2)

/-- Comparison used by the final sort (source comparator a.startMs - b.startMs). -/
def cueLE (a b : MCue) : Prop := a.startMs ≤ b.startMs

instance : DecidableRel cueLE := fun a b =>
  inferInstanceAs (Decidable (a.startMs ≤ b.startMs))

instance : IsTotal MCue cueLE := ⟨fun a b => Int.le_total a.startMs b.startMs⟩

instance : IsTrans MCue cueLE := ⟨fun _ _ _ h1 h2 => le_trans h1 h2⟩

/-- The post-merge validation loop: returns the validation warnings and the
errors. A negative cue pushes one error and breaks out of the whole loop. -/
def validateLoop : Option MCue → List MCue → List String × List String
  | _, [] => ([], [])
  | prev, c :: rest =>
    if c.startMs < 0 ∨ c.endMs < 0 then ([], ["negative_timestamps"])
    else
      let w1 := if c.endMs < c.startMs then ["cue_end_before_start"] else []
      let w2 := match prev with
        | some p =>
          if p.endMs > c.startMs ∧ p.sourceFileIndex = c.sourceFileIndex then
            ["overlap_detected"]
          else []
        | none => ([] : List String)
      let r := validateLoop (some c) rest
      (w1 ++ w2 ++ r.1, r.2)

/-- mergeParsedFilesSequential from srt-merge.ts. The JS in-place sort is
stable and ascending in startMs, hence modelled by insertionSort on cueLE. -/
def mergeParsedFilesSequential (parsedFiles : List ParsedFile)
    (options : MergeOptions) : SequentialMergeResult :=
  if parsedFiles.isEmpty then ⟨[], ["no_files"], ["no_files_uploaded"]⟩
  else
    let shifts := cumulativeShift options 0 0 parsedFiles
    let app := applyLoop 0 parsedFiles shifts
    let merged :=
      if options.sortFinalByStart.getD false then List.insertionSort cueLE app.1
      else app.1
    let v := validateLoop none merged
    ⟨merged, app.2 ++ v.1, v.2⟩

/-- Placeholder file used to spell out list indexing in specification sums. -/
def dummyFile : ParsedFile := ⟨none, []⟩

/-- Chosen duration of file j as worded by the specification: the
perFileOffsetMs override if present, else the maximum finite endMs, else
max 0 (maximum finite endMs - minimum finite startMs), else 0. -/
def specChosen (opts : MergeOptions) (j : Nat) (pf : ParsedFile) : Int :=
  match opts.perFileOffsetMs j with
  | some off => off
  | none =>
    match (pf.cues.filterMap (fun c => c.endMs)).max? with
    | some e => e
    | none =>
      match (pf.cues.filterMap (fun c => c.endMs)).max?,
            (pf.cues.filterMap (fun c => c.startMs)).min? with
      | some e, some s => max 0 (e - s)
      | _, _ => 0

/-- Specification-side shift of file i: the sum of the chosen durations of
the files before it. -/
def specShift (opts : MergeOptions) (files : List ParsedFile) (i : Nat) : Int :=
  ∑ j ∈ Finset.range i, specChosen opts j (files.getD j dummyFile)

/-- The shift the merger applies to file i (cumulativeShift with the source
fallback to 0). -/
def fileShift (opts : MergeOptions) (files : List ParsedFile) (i : Nat) : Int :=
  (cumulativeShift opts 0 0 files).getD i 0

/-- Specification-side merged list: each file contributes its finite cues in
order, shifted by the sum of the chosen durations of the preceding files. -/
def specMergedFrom (opts : MergeOptions) (files : List ParsedFile) :
    Nat → List ParsedFile → List MCue
  | _, [] => []
  | i, pf :: rest =>
    pf.cues.filterMap (shiftCue? i (specShift opts files i)) ++
      specMergedFrom opts files (i + 1) rest

def specMerged (opts : MergeOptions) (files : List ParsedFile) : List MCue :=
  specMergedFrom opts files 0 files

/-- The merged list of a non-empty run, before validation: the structural
flattening, optionally insertion sorted. -/
def mergedAfterSort (files : List ParsedFile) (opts : MergeOptions) : List MCue :=
  if opts.sortFinalByStart.getD false then
    List.insertionSort cueLE ((applyLoop 0 files (cumulativeShift opts 0 0 files)).1)
  else (applyLoop 0 files (cumulativeShift opts 0 0 files)).1

/-- A merged cue with both times non-negative (the negation of the break
condition of the validation loop). -/
def nonNegCue (c : MCue) : Bool := decide (0 ≤ c.startMs) && decide (0 ≤ c.endMs)

/-- A merged cue that ends before it starts. -/
def endBeforeStart (c : MCue) : Bool := decide (c.endMs < c.startMs)

/-- The adjacent-pair condition of the overlap check: the earlier cue ends
after the later one starts and both come from the same source file. -/
def overlapPair (p c : MCue) : Bool :=
  decide (p.endMs > c.startMs) && decide (p.sourceFileIndex = c.sourceFileIndex)

/-- Options record with every field absent, as when the source is called
with an empty options object. -/
def defaultOpts : MergeOptions := ⟨fun _ => none, none, none⟩

/-- Concrete input for the C5 counterexample: a negative cue followed by a
cue that ends before it starts. -/
def c5File : ParsedFile :=
  ⟨none, [⟨some (-1000), some (-500), "A"⟩, ⟨some 2000, some 1000, "B"⟩]⟩

/-- Concrete input for the C6 counterexample: a negative cue followed by two
overlapping same-file cues. -/
def c6File : ParsedFile :=
  ⟨none, [⟨some (-1000), some (-500), "A"⟩, ⟨some 0, some 1000, "B"⟩,
          ⟨some 500, some 1500, "C"⟩]⟩

/-- Concrete two-file input used by witnesses. -/
def wFile1 : ParsedFile := ⟨some "a.srt", [⟨some 0, some 1000, "A"⟩]⟩

def wFile2 : ParsedFile := ⟨some "b.srt", [⟨some 0, some 1000, "B"⟩]⟩

/-! String primitives. The JS string operations (trim, split, parseInt) are
given structurally recursive character-list implementations so that every
definition evaluates by kernel reduction on concrete inputs. -/

/-- Strip leading and trailing whitespace from a character list. -/
def trimChars (l : List Char) : List Char :=
  ((l.dropWhile Char.isWhitespace).reverse.dropWhile Char.isWhitespace).reverse

/-- The JS String trim. -/
def jsTrim (s : String) : String := String.mk (trimChars s.data)

/-- Whether the second list starts with the first. -/
def startsWithChars : List Char → List Char → Bool
  | [], _ => true
  | _ :: _, [] => false
  | a :: as, b :: bs => a == b && startsWithChars as bs

/-- Split on a non-empty separator, fuelled by the input length. -/
def splitOnFuel (sep : List Char) : Nat → List Char → List Char →
    List (List Char)
  | 0, _, acc => [acc.reverse]
  | _ + 1, [], acc => [acc.reverse]
  | fuel + 1, c :: rest, acc =>
    if startsWithChars sep (c :: rest) then
      acc.reverse :: splitOnFuel sep fuel ((c :: rest).drop sep.length) []
    else
      splitOnFuel sep fuel rest (c :: acc)

/-- The JS String split on a plain string separator. -/
def jsSplitOn (s sep : String) : List String :=
  (splitOnFuel sep.data (s.data.length + 1) s.data []).map String.mk

/-- The JS parseInt over a digits-only token, also standing in for string
to natural conversion: some value when the token is non-empty and all
digits, none otherwise. -/
def jsToNat (s : String) : Option Nat :=
  if !s.data.isEmpty && s.data.all Char.isDigit then
    some (s.data.foldl (fun acc c => acc * 10 + (c.toNat - 48)) 0)
  else none

/-- Split on line breaks, accepting both bare and carriage-return-prefixed
endings (the JS split on the backslash-r-question-backslash-n pattern),
fuelled by the input length. -/
def splitLinesFuel : Nat → List Char → List Char → List (List Char)
  | 0, _, acc => [acc.reverse]
  | _ + 1, [], acc => [acc.reverse]
  | fuel + 1, c :: rest, acc =>
    if c == '\n' then acc.reverse :: splitLinesFuel fuel rest []
    else if c == '\r' then
      match rest with
      | '\n' :: rest2 => acc.reverse :: splitLinesFuel fuel rest2 []
      | _ => splitLinesFuel fuel rest (c :: acc)
    else splitLinesFuel fuel rest (c :: acc)

def splitLines (content : String) : List String :=
  (splitLinesFuel (content.data.length + 1) content.data []).map String.mk

/-! Permissive SRT block parser (permissiveParseSrt in srt-merge.ts). -/

/-- A raw block as produced by the permissive parser. -/
structure SrtBlock where
  origIndex : Option Nat
  tsRaw : String
  texts : List String
deriving Repr, DecidableEq

/-- A trimmed line consisting solely of digits (the anchored digits test). -/
def isIndexLine (line : String) : Bool :=
  !line.data.isEmpty && line.data.all Char.isDigit

/-- Colon, two digits, colon, two digits: the tail of the time pattern. -/
def matchMMSS : List Char → Bool
  | c1 :: m1 :: m2 :: c2 :: s1 :: s2 :: _ =>
    c1 == ':' && m1.isDigit && m2.isDigit && c2 == ':' && s1.isDigit && s2.isDigit
  | _ => false

/-- Time pattern match at this position with a one-digit hour field. -/
def matchTime1 : List Char → Bool
  | d1 :: rest => d1.isDigit && matchMMSS rest
  | [] => false

/-- Time pattern match at this position with a two-digit hour field. -/
def matchTime2 : List Char → Bool
  | d1 :: d2 :: rest => d1.isDigit && d2.isDigit && matchMMSS rest
  | _ => false

/-- Unanchored search for the one-or-two-digit H:MM:SS time pattern, as the
JS regular expression test. -/
def hasTimePattern : List Char → Bool
  | [] => false
  | c :: rest => matchTime1 (c :: rest) || matchTime2 (c :: rest) || hasTimePattern rest

/-- The JS includes test for the arrow token. -/
def containsArrow (line : String) : Bool :=
  decide (2 ≤ (jsSplitOn line "-->").length)

/-- A line accepted as a timestamp line when one is expected. -/
def looksLikeTimestamp (line : String) : Bool :=
  containsArrow line || hasTimePattern line.data

/-- The mutable locals of permissiveParseSrt, as one parser state. -/
structure PState where
  blocks : List SrtBlock
  currentBlock : Option SrtBlock
  textLines : List String
  expectingIndex : Bool
  expectingTimestamp : Bool
  isReadingText : Bool
deriving Repr, DecidableEq

def initPState : PState := ⟨[], none, [], true, false, false⟩

/-- One loop iteration of permissiveParseSrt over a raw input line. -/
def pstep (s : PState) (rawLine : String) : PState :=
  let line := jsTrim rawLine
  if isIndexLine line then
    let s2 :=
      match s.currentBlock with
      | some cb =>
        if cb.tsRaw ≠ "" ∨ s.textLines ≠ [] then
          { s with blocks := s.blocks ++ [{ cb with texts := s.textLines }],
                   textLines := [] }
        else s
      | none => s
    { s2 with currentBlock := some ⟨jsToNat line, "", []⟩,
              expectingIndex := false, expectingTimestamp := true,
              isReadingText := false }
  else if s.expectingTimestamp && looksLikeTimestamp line then
    match s.currentBlock with
    | some cb =>
      { s with currentBlock := some { cb with tsRaw := line },
               expectingTimestamp := false, isReadingText := true }
    | none => s
  else if s.isReadingText && s.currentBlock.isSome then
    { s with textLines := s.textLines ++ [line] }
  else if s.currentBlock.isSome && !s.expectingTimestamp then
    { s with textLines := s.textLines ++ [line], isReadingText := true }
  else if s.currentBlock.isNone && !s.expectingIndex then
    { s with currentBlock := some ⟨none, "", [line]⟩, isReadingText := true }
  else s

/-- permissiveParseSrt from srt-merge.ts: fold the line loop, then flush any
open block. -/
def permissiveParseSrt (content : String) : List SrtBlock :=
  let s := (splitLines content).foldl pstep initPState
  match s.currentBlock with
  | some cb => s.blocks ++ [{ cb with texts := s.textLines }]
  | none => s.blocks

/-- Concrete input for the C7 counterexample: a text line carrying
surrounding whitespace. -/
def c7Content : String := "1\n00:00:00,000 --> 00:00:01,000\n  hello  "

/-- Concrete mid-parse state for the C7 witness: one block past its
timestamp, reading text. -/
def c7State : PState :=
  ⟨[], some ⟨some 1, "00:00:00,000 --> 00:00:01,000", []⟩, ["a"],
   false, false, true⟩

/-! Timestamp codec. The module timestamp-arith.ts is imported by the
sources but is not itself among them, so these four functions are modelled
from the specification. The raw-merger claims proved below do not depend on
the concrete values these functions return. -/

/-- Modelled from the spec: parseTimestampToMs of the missing
timestamp-arith.ts. Accepts an HH:MM:SS,mmm token with comma or period as
the fractional separator, tolerates surrounding whitespace, returns none
(never throws) on malformed tokens. -/
def parseTimestampToMs (token : String) : Option Int :=
  let t := jsTrim token
  match jsSplitOn t ":" with
  | [hh, mm, rest] =>
    let parts :=
      if (jsSplitOn rest ",").length == 2 then jsSplitOn rest ","
      else jsSplitOn rest "."
    match parts with
    | [ss, ms] =>
      match jsToNat hh, jsToNat mm, jsToNat ss, jsToNat ms with
      | some h, some m, some s2, some x =>
        some (Int.ofNat (((h * 60 + m) * 60 + s2) * 1000 + x))
      | _, _, _, _ => none
    | _ => none
  | _ => none

def pad2 (n : Nat) : String :=
  if n < 10 then "0" ++ toString n else toString n

def pad3 (n : Nat) : String :=
  if n < 10 then "00" ++ toString n
  else if n < 100 then "0" ++ toString n
  else toString n

/-- Modelled from the spec: formatMsToTimestamp of the missing
timestamp-arith.ts; zero-padded HH:MM:SS,mmm. Negative inputs clamp at
zero (the specification fixes only non-negative behaviour). -/
def formatMsToTimestamp (msIn : Int) : String :=
  let ms := msIn.toNat
  pad2 (ms / 3600000) ++ ":" ++ pad2 (ms % 3600000 / 60000) ++ ":" ++
    pad2 (ms % 60000 / 1000) ++ "," ++ pad3 (ms % 1000)

/-- Modelled from the spec: shiftTimestampLine of the missing
timestamp-arith.ts. Splits on the arrow, parses both sides, adds the
offset, reformats and rejoins; none when either side fails to parse. -/
def shiftTimestampLine (raw : String) (offsetMs : Int) : Option String :=
  match jsSplitOn raw "-->" with
  | [a, b] =>
    match parseTimestampToMs a, parseTimestampToMs b with
    | some x, some y =>
      some (formatMsToTimestamp (x + offsetMs) ++ " --> " ++
        formatMsToTimestamp (y + offsetMs))
    | _, _ => none
  | _ => none

/-- Modelled from the spec: makeFallbackTimestamp of the missing
timestamp-arith.ts. The synthesized line starts at
max previousEndMs cumulativeOffsetMs plus the gap; the fixed span of
1000 ms stands in for the constant of the missing module. -/
def makeFallbackTimestamp (previousEndMs cumulativeOffsetMs gapMs : Int) : String :=
  let start := max previousEndMs cumulativeOffsetMs + gapMs
  formatMsToTimestamp start ++ " --> " ++ formatMsToTimestamp (start + 1000)

/-- Collapse every whitespace run into one space, carrying a flag for a
preceding whitespace character (the JS global whitespace replacement). -/
def collapseAux : Bool → List Char → List Char
  | _, [] => []
  | prevWs, c :: rest =>
    if c.isWhitespace then
      if prevWs then collapseAux true rest else ' ' :: collapseAux true rest
    else c :: collapseAux false rest

/-- The normalization applied before comparing a shifted line with its raw
original: collapse whitespace runs, then trim. -/
def normalizeWs (s : String) : String :=
  String.mk (trimChars (collapseAux false s.data))

/-! Raw-text merger (mergeSrtFiles in srt-merge.ts). -/

inductive DiagAction
  | normal
  | normalized
  | fallback
deriving Repr, DecidableEq

structure MergeDiagnostic where
  src_file : String
  original_index : Option Nat
  original_timestamp_line : String
  final_index : Nat
  final_timestamp : String
  action : DiagAction
  reason : Option String
deriving Repr, DecidableEq

/-- One block of the merged output document. -/
structure OutBlock where
  index : Nat
  timestamp : String
  texts : List String
deriving Repr, DecidableEq

/-- The accumulators of mergeSrtFiles that live across files. -/
structure MState where
  cumulativeMs : Int
  globalIndex : Nat
  lastMergedEndMs : Option Int
  totalInputCues : Nat
  parseIssuesCount : Nat
  diagnostics : List MergeDiagnostic
  mergedBlocks : List OutBlock
deriving Repr, DecidableEq

def initMState : MState := ⟨0, 1, none, 0, 0, [], []⟩

/-- The end token of a timestamp line: part 1 of the arrow split, trimmed,
rejected when empty (the JS optional-chaining plus truthiness test). -/
def endTokenOf (ts : String) : Option String :=
  match (jsSplitOn ts "-->")[1]? with
  | some t => if jsTrim t = "" then none else some (jsTrim t)
  | none => none

structure NamedFile where
  name : String
  content : String
deriving Repr, DecidableEq

structure MergeStats where
  totalInputCues : Nat
  totalOutputCues : Nat
  parseIssuesCount : Nat
  filesProcessed : Nat
deriving Repr, DecidableEq

structure MergeResult where
  mergedSrt : String
  diagnostics : List MergeDiagnostic
  stats : MergeStats
deriving Repr, DecidableEq

/-- The per-block body of mergeSrtFiles. curEnd is the running maximum end
time within the current file own timeline; the result pairs the new global
state with the new curEnd. -/
def processBlock (fname : String) (st : MState) (curEnd : Int)
    (b : SrtBlock) : MState × Int :=
  let branch : String × DiagAction × Option String × Nat × Int :=
    match shiftTimestampLine b.tsRaw st.cumulativeMs with
    | some line =>
      let action :=
        if normalizeWs line ≠ normalizeWs b.tsRaw then DiagAction.normalized
        else DiagAction.normal
      let cur2 :=
        match shiftTimestampLine b.tsRaw 0 with
        | some unshifted =>
          match endTokenOf unshifted with
          | some tok =>
            match parseTimestampToMs tok with
            | some endMs => if endMs > curEnd then endMs else curEnd
            | none => curEnd
          | none => curEnd
        | none => curEnd
      (line, action, none, 0, cur2)
    | none =>
      let prevEnd := st.lastMergedEndMs.getD 0
      let line := makeFallbackTimestamp prevEnd st.cumulativeMs 200
      let cur2 :=
        match endTokenOf line with
        | some tok =>
          match parseTimestampToMs tok with
          | some fe =>
            if fe - st.cumulativeMs > curEnd then fe - st.cumulativeMs else curEnd
          | none => curEnd
        | none => curEnd
      (line, DiagAction.fallback, some "Unparseable timestamp line", 1, cur2)
  match branch with
  | (finalTs, action, reason, inc, cur2) =>
    let newLast :=
      match endTokenOf finalTs with
      | some tok =>
        match parseTimestampToMs tok with
        | some e => some e
        | none => st.lastMergedEndMs
      | none => st.lastMergedEndMs
    let diags :=
      if action = DiagAction.normal then st.diagnostics
      else st.diagnostics ++
        [⟨fname, b.origIndex, b.tsRaw, st.globalIndex, finalTs, action, reason⟩]
    ({ st with
        globalIndex := st.globalIndex + 1,
        lastMergedEndMs := newLast,
        parseIssuesCount := st.parseIssuesCount + inc,
        diagnostics := diags,
        mergedBlocks := st.mergedBlocks ++
          [⟨st.globalIndex, finalTs,
            if b.texts.isEmpty then ["[No text]"] else b.texts⟩] },
     cur2)

/-- The per-file body of mergeSrtFiles: parse, count the input blocks, fold
the block loop from a zero in-file end time, then advance the cumulative
offset by the last end time of this file. -/
def processFile (st : MState) (f : NamedFile) : MState :=
  let blocks := permissiveParseSrt f.content
  let st1 := { st with totalInputCues := st.totalInputCues + blocks.length }
  let r := blocks.foldl (fun p b => processBlock f.name p.1 p.2 b) (st1, 0)
  { r.1 with cumulativeMs := r.1.cumulativeMs + r.2 }

def mergeSrtState (files : List NamedFile) : MState :=
  files.foldl processFile initMState

/-- The merged output blocks of mergeSrtFiles. -/
def mergeSrtBlocks (files : List NamedFile) : List OutBlock :=
  (mergeSrtState files).mergedBlocks

def renderBlock (b : OutBlock) : String :=
  toString b.index ++ "\n" ++ b.timestamp ++ "\n" ++
    String.intercalate "\n" b.texts ++ "\n"

/-- mergeSrtFiles from srt-merge.ts. -/
def mergeSrtFiles (files : List NamedFile) : MergeResult :=
  let st := mergeSrtState files
  ⟨String.intercalate "\n" (st.mergedBlocks.map renderBlock),
   st.diagnostics,
   ⟨st.totalInputCues, st.mergedBlocks.length, st.parseIssuesCount,
    files.length⟩⟩

/-- The texts a parsed block is emitted with (the placeholder substitution
on an empty text-line list). -/
def emittedTexts (b : SrtBlock) : List String :=
  if b.texts.isEmpty then ["[No text]"] else b.texts

/-- Concrete input for the C8 counterexample: one block whose text lines
are two empty strings. -/
def c8Files : List NamedFile :=
  [⟨"f.srt", "1\n00:00:01,000 --> 00:00:02,000\n\n"⟩]

theorem chosenDuration_eq_specChosen (opts : MergeOptions) (i : Nat)
    (pf : ParsedFile) : chosenDuration opts i pf = specChosen opts i pf := by
  rcases h1 : opts.perFileOffsetMs i with _ | off <;>
    rcases h2 : (pf.cues.filterMap (fun c => c.endMs)).max? with _ | e <;>
      rcases h3 : (pf.cues.filterMap (fun c => c.startMs)).min? with _ | s <;>
        simp [chosenDuration, specChosen, baseEndMs, h1, h2, h3]

theorem getD_of_drop {α : Type} (d : α) :
    ∀ (l : List α) (i : Nat) (a : α) (rest : List α),
      l.drop i = a :: rest → l.getD i d = a
  | [], i, a, rest, h => by simp at h
  | x :: l, 0, a, rest, h => by
    have hx : x = a := by simpa using congrArg (fun t => t.headD d) h
    simp [hx]
  | x :: l, i + 1, a, rest, h => by
    have := getD_of_drop d l i a rest (by simpa using h)
    simpa using this

theorem drop_succ_of_drop {α : Type} :
    ∀ (l : List α) (i : Nat) (a : α) (rest : List α),
      l.drop i = a :: rest → l.drop (i + 1) = rest := by
  intro l i a rest h
  rw [← List.tail_drop, h]
  rfl

theorem specShift_succ (opts : MergeOptions) (files : List ParsedFile)
    (i : Nat) :
    specShift opts files (i + 1) =
      specShift opts files i + specChosen opts i (files.getD i dummyFile) :=
  Finset.sum_range_succ _ i

theorem applyLoop_fst_eq (opts : MergeOptions) (files : List ParsedFile) :
    ∀ (fs : List ParsedFile) (i : Nat) (run : Int),
      files.drop i = fs → run = specShift opts files i →
      (applyLoop i fs (cumulativeShift opts i run fs)).1 =
        specMergedFrom opts files i fs
  | [], _, _, _, _ => rfl
  | pf :: rest, i, run, hdrop, hrun => by
    subst hrun
    have hpf : files.getD i dummyFile = pf := getD_of_drop _ files i pf rest hdrop
    have hrest : files.drop (i + 1) = rest := drop_succ_of_drop files i pf rest hdrop
    have hrun2 : specShift opts files i + chosenDuration opts i pf =
        specShift opts files (i + 1) := by
      rw [specShift_succ, hpf, chosenDuration_eq_specChosen]
    have ih := applyLoop_fst_eq opts files rest (i + 1)
      (specShift opts files i + chosenDuration opts i pf) hrest hrun2
    by_cases hc : pf.cues.isEmpty
    · have hnil : pf.cues = [] := List.isEmpty_iff.mp hc
      simp [applyLoop, cumulativeShift, specMergedFrom, hc, hnil, ih]
    · simp [applyLoop, cumulativeShift, specMergedFrom, hc, ih]

theorem cumulativeShift_getD_eq (opts : MergeOptions) (files : List ParsedFile) :
    ∀ (fs : List ParsedFile) (i : Nat) (run : Int) (k : Nat),
      files.drop i = fs → run = specShift opts files i → k < fs.length →
      (cumulativeShift opts i run fs).getD k 0 = specShift opts files (i + k)
  | [], _, _, k, _, _, hk => absurd hk (by simp)
  | pf :: rest, i, run, 0, _, hrun, _ => by
    simp [cumulativeShift, hrun]
  | pf :: rest, i, run, k + 1, hdrop, hrun, hk => by
    subst hrun
    have hpf : files.getD i dummyFile = pf := getD_of_drop _ files i pf rest hdrop
    have hrest : files.drop (i + 1) = rest := drop_succ_of_drop files i pf rest hdrop
    have hrun2 : specShift opts files i + chosenDuration opts i pf =
        specShift opts files (i + 1) := by
      rw [specShift_succ, hpf, chosenDuration_eq_specChosen]
    have ih := cumulativeShift_getD_eq opts files rest (i + 1)
      (specShift opts files i + chosenDuration opts i pf) k hrest hrun2
      (by simpa using hk)
    have harith : i + 1 + k = i + (k + 1) := by omega
    simpa [cumulativeShift, harith] using ih

theorem mergeSeq_eq (files : List ParsedFile) (opts : MergeOptions)
    (h : files.isEmpty = false) :
    mergeParsedFilesSequential files opts =
      ⟨mergedAfterSort files opts,
       (applyLoop 0 files (cumulativeShift opts 0 0 files)).2 ++
         (validateLoop none (mergedAfterSort files opts)).1,
       (validateLoop none (mergedAfterSort files opts)).2⟩ := by
  by_cases hs : opts.sortFinalByStart.getD false <;>
    simp [mergeParsedFilesSequential, mergedAfterSort, h, hs]

theorem mergedAfterSort_eq (files : List ParsedFile) (opts : MergeOptions) :
    mergedAfterSort files opts =
      if opts.sortFinalByStart.getD false then
        List.insertionSort cueLE (specMerged opts files)
      else specMerged opts files := by
  have happ := applyLoop_fst_eq opts files files 0 0 (by simp)
    (by simp [specShift])
  rw [mergedAfterSort, happ, specMerged]

/-- Claim C3: on the empty file list the merger returns, for any options, an
empty cue list, the error no_files_uploaded and the warning no_files. -/
theorem mergeSeq_empty_input (options : MergeOptions) :
    mergeParsedFilesSequential [] options =
      ⟨[], ["no_files"], ["no_files_uploaded"]⟩
    ∧ "no_files_uploaded" ∈ (mergeParsedFilesSequential [] options).errors
    ∧ "no_files" ∈ (mergeParsedFilesSequential [] options).warnings := by
  refine ⟨rfl, ?_, ?_⟩ <;> simp [mergeParsedFilesSequential]

/-- Claim C1: for any file list and options value the merger shifts the cues
of file i by exactly the sum, over the files before it in order, of each
chosen duration (offset override, else maximum finite end, else derived
span, else 0), and the shift of file 0 is 0. The merged output is stated as
a permutation of the specification-side flattening because the optional
final sort reorders cues without changing their shifted times. -/
theorem mergeSeq_cumulative_shifts (files : List ParsedFile)
    (opts : MergeOptions) :
    (mergeParsedFilesSequential files opts).mergedCues.Perm (specMerged opts files)
    ∧ (∀ i, i < files.length → fileShift opts files i = specShift opts files i)
    ∧ fileShift opts files 0 = 0 := by
  refine ⟨?_, ?_, ?_⟩
  · by_cases h : files = []
    · subst h
      simp [mergeParsedFilesSequential, specMerged, specMergedFrom]
    · have hne : files.isEmpty = false := by simp [h]
      rw [mergeSeq_eq files opts hne]
      show (mergedAfterSort files opts).Perm (specMerged opts files)
      rw [mergedAfterSort_eq]
      by_cases hs : opts.sortFinalByStart.getD false
      · simp only [hs, if_true]
        exact List.perm_insertionSort cueLE _
      · simp [hs]
  · intro i hi
    have := cumulativeShift_getD_eq opts files files 0 0 i (by simp)
      (by simp [specShift]) hi
    simpa [fileShift] using this
  · cases files <;> rfl

theorem mergeSeq_cumulative_shifts_witness :
    1 < ([wFile1, wFile2] : List ParsedFile).length
    ∧ fileShift defaultOpts [wFile1, wFile2] 1 =
        specShift defaultOpts [wFile1, wFile2] 1 :=
  ⟨by decide,
   (mergeSeq_cumulative_shifts [wFile1, wFile2] defaultOpts).2.1 1 (by decide)⟩

theorem fileWarn_head (s t : String) :
    (("file_" ++ s) ++ t).data.head? = some 'f' := by
  rw [String.data_append, String.data_append]
  rfl

theorem mem_fileWarnings {w : String} {i : Nat} {pf : ParsedFile}
    (h : w ∈ fileWarnings i pf) : w = malformedWarning i := by
  obtain ⟨c, _, hc2⟩ := List.mem_filterMap.mp h
  rcases c with ⟨_ | s, _ | e, t⟩ <;> simp_all

theorem applyLoop_snd_head :
    ∀ (i : Nat) (fs : List ParsedFile) (shifts : List Int) (w : String),
      w ∈ (applyLoop i fs shifts).2 → w.data.head? = some 'f'
  | _, [], _, _, hw => by simp [applyLoop] at hw
  | i, pf :: rest, shifts, w, hw => by
    simp only [applyLoop] at hw
    rcases List.mem_append.mp hw with h | h
    · by_cases hc : pf.cues.isEmpty
      · simp only [hc, if_true] at h
        have hw2 : w = noCuesWarning i := by simpa using h
        subst hw2
        exact fileWarn_head (toString i) "_no_cues"
      · simp only [hc, if_false, Bool.false_eq_true] at h
        have hw2 : w = malformedWarning i := mem_fileWarnings h
        subst hw2
        exact fileWarn_head (toString i) "_malformed_cue"
    · exact applyLoop_snd_head (i + 1) rest shifts.tail w h

theorem applyLoop_count_zero (i : Nat) (fs : List ParsedFile)
    (shifts : List Int) (w : String) (hw : w.data.head? ≠ some 'f') :
    ((applyLoop i fs shifts).2).count w = 0 :=
  List.count_eq_zero.mpr (fun hmem => hw (applyLoop_snd_head i fs shifts w hmem))

theorem validateLoop_count_cebs :
    ∀ (l : List MCue) (prev : Option MCue),
      ((validateLoop prev l).1).count "cue_end_before_start" =
        (l.takeWhile nonNegCue).countP endBeforeStart
  | [], _ => rfl
  | c :: rest, prev => by
    have ih := validateLoop_count_cebs rest (some c)
    by_cases hneg : c.startMs < 0 ∨ c.endMs < 0
    · have ht : nonNegCue c = false := by
        simp only [nonNegCue, Bool.and_eq_false_iff, decide_eq_false_iff_not, not_le]
        omega
      simp [validateLoop, hneg, List.takeWhile_cons, ht]
    · have ht : nonNegCue c = true := by
        simp only [nonNegCue, Bool.and_eq_true, decide_eq_true_eq]
        omega
      rcases prev with _ | p
      · by_cases hP : c.endMs < c.startMs <;>
          simp [validateLoop, hneg, ht, hP, ih, List.count_append,
            List.takeWhile_cons, List.countP_cons, endBeforeStart]
      · by_cases hP : c.endMs < c.startMs <;>
          by_cases hO : p.endMs > c.startMs ∧
            p.sourceFileIndex = c.sourceFileIndex <;>
          simp [validateLoop, hneg, ht, hP, hO, ih, List.count_append,
            List.takeWhile_cons, List.countP_cons, endBeforeStart,
            List.count_singleton]

theorem validateLoop_count_overlap :
    ∀ (l : List MCue) (prev : Option MCue),
      ((validateLoop prev l).1).count "overlap_detected" =
        ((prev.toList ++ l.takeWhile nonNegCue).zip
          ((prev.toList ++ l.takeWhile nonNegCue).tail)).countP
          (fun q => overlapPair q.1 q.2)
  | [], prev => by rcases prev with _ | p <;> rfl
  | c :: rest, prev => by
    have ih := validateLoop_count_overlap rest (some c)
    by_cases hneg : c.startMs < 0 ∨ c.endMs < 0
    · have ht : nonNegCue c = false := by
        simp only [nonNegCue, Bool.and_eq_false_iff, decide_eq_false_iff_not, not_le]
        omega
      rcases prev with _ | p <;>
        simp [validateLoop, hneg, List.takeWhile_cons, ht]
    · have ht : nonNegCue c = true := by
        simp only [nonNegCue, Bool.and_eq_true, decide_eq_true_eq]
        omega
      rcases prev with _ | p
      · by_cases hP : c.endMs < c.startMs <;>
          simp [validateLoop, hneg, ht, hP, ih, List.count_append,
            List.takeWhile_cons, List.count_singleton]
      · by_cases hP : c.endMs < c.startMs <;>
          by_cases hO : p.endMs > c.startMs ∧
            p.sourceFileIndex = c.sourceFileIndex <;>
          simp [validateLoop, hneg, ht, hP, hO, ih, List.count_append,
            List.takeWhile_cons, List.count_singleton, List.countP_cons,
            overlapPair]

/-- Claim C5 counterexample: with a negative-timestamp cue ahead of a cue
that ends before it starts, the validation loop breaks at the negative cue,
so the end-before-start cue contributes no cue_end_before_start warning even
though the flattened sequence contains one such cue — the scan does not
continue to the end of the sequence as the claim states. -/
theorem mergeSeq_cueEndBeforeStart_counterexample :
    (mergeParsedFilesSequential [c5File] defaultOpts).warnings.count
        "cue_end_before_start" = 0
    ∧ (mergeParsedFilesSequential [c5File] defaultOpts).mergedCues.countP
        endBeforeStart = 1 := by
  constructor <;> decide

/-- Claim C5 (amended): every cue that ends before it starts and lies before
the first negative-timestamp cue contributes one cue_end_before_start
warning occurrence; the scan continues past such cues but stops at the
first negative-timestamp cue. -/
theorem mergeSeq_cueEndBeforeStart (files : List ParsedFile)
    (opts : MergeOptions) :
    (mergeParsedFilesSequential files opts).warnings.count
        "cue_end_before_start" =
      (((mergeParsedFilesSequential files opts).mergedCues.takeWhile
          nonNegCue).countP endBeforeStart) := by
  by_cases h : files = []
  · subst h
    simp [mergeParsedFilesSequential]
  · have hne : files.isEmpty = false := by simp [h]
    rw [mergeSeq_eq files opts hne]
    show (_ ++ (validateLoop none (mergedAfterSort files opts)).1).count _ = _
    rw [List.count_append, applyLoop_count_zero _ _ _ _ (by decide),
      validateLoop_count_cebs]
    simp

/-- Claim C6 counterexample: with a negative-timestamp cue ahead of two
overlapping same-file cues, the validation loop breaks at the negative cue
and records no overlap_detected warning, although the flattened sequence
has one adjacent same-file overlapping pair — so the warning is not emitted
exactly at such positions as the claim states. -/
theorem mergeSeq_overlap_counterexample :
    (mergeParsedFilesSequential [c6File] defaultOpts).warnings.count
        "overlap_detected" = 0
    ∧ (((mergeParsedFilesSequential [c6File] defaultOpts).mergedCues).zip
        ((mergeParsedFilesSequential [c6File] defaultOpts).mergedCues.tail)).countP
        (fun q => overlapPair q.1 q.2) = 1 := by
  constructor <;> decide

/-- Claim C6 (amended): an overlap_detected warning is emitted exactly for
the adjacent positions, within the maximal prefix of the flattened sequence
that precedes the first negative-timestamp cue, where the earlier cue ends
after the later one starts and both carry the same sourceFileIndex; in
particular adjacent cues from different source files never trigger it. -/
theorem mergeSeq_overlap_exact (files : List ParsedFile)
    (opts : MergeOptions) :
    (mergeParsedFilesSequential files opts).warnings.count "overlap_detected" =
      ((((mergeParsedFilesSequential files opts).mergedCues.takeWhile
          nonNegCue).zip
        (((mergeParsedFilesSequential files opts).mergedCues.takeWhile
          nonNegCue).tail)).countP (fun q => overlapPair q.1 q.2)) := by
  by_cases h : files = []
  · subst h
    simp [mergeParsedFilesSequential]
  · have hne : files.isEmpty = false := by simp [h]
    rw [mergeSeq_eq files opts hne]
    show (_ ++ (validateLoop none (mergedAfterSort files opts)).1).count _ = _
    rw [List.count_append, applyLoop_count_zero _ _ _ _ (by decide),
      validateLoop_count_overlap]
    simp

theorem orderedInsert_all (a : MCue) :
    ∀ (m : List MCue), (∀ x ∈ m, cueLE a x) →
      List.orderedInsert cueLE a m = a :: m
  | [], _ => rfl
  | b :: m, h => by
    have hab : cueLE a b := h b (by simp)
    simp [List.orderedInsert, hab]

theorem filter_orderedInsert (p : MCue → Bool) (a : MCue) :
    ∀ (l : List MCue), l.Pairwise cueLE →
      (List.orderedInsert cueLE a l).filter p =
        if p a then List.orderedInsert cueLE a (l.filter p) else l.filter p
  | [], _ => by
    by_cases hp : p a <;> simp [List.orderedInsert, hp]
  | b :: l, hl => by
    have hbl : ∀ x ∈ l, cueLE b x := (List.pairwise_cons.mp hl).1
    have htl : l.Pairwise cueLE := (List.pairwise_cons.mp hl).2
    by_cases hab : cueLE a b
    · have hall : ∀ x ∈ (b :: l).filter p, cueLE a x := by
        intro x hx
        have hx2 := (List.mem_filter.mp hx).1
        rcases List.mem_cons.mp hx2 with h1 | h1
        · subst h1; exact hab
        · exact le_trans hab (hbl x h1)
      have h1 : List.orderedInsert cueLE a (b :: l) = a :: b :: l := by
        simp [List.orderedInsert, hab]
      by_cases hp : p a
      · rw [if_pos hp, h1, orderedInsert_all a _ hall]
        simp [List.filter_cons, hp]
      · rw [if_neg hp, h1]
        simp [List.filter_cons, hp]
    · have ih := filter_orderedInsert p a l htl
      by_cases hp : p a <;> by_cases hpb : p b <;>
        simp [List.orderedInsert, hab, hp, hpb, List.filter_cons, ih]

theorem filter_insertionSort (p : MCue → Bool) :
    ∀ (l : List MCue),
      (List.insertionSort cueLE l).filter p =
        List.insertionSort cueLE (l.filter p)
  | [] => rfl
  | a :: l => by
    have hs : (List.insertionSort cueLE l).Pairwise cueLE :=
      List.sorted_insertionSort cueLE l
    have ih := filter_insertionSort p l
    by_cases hp : p a <;>
      simp [List.insertionSort, List.filter_cons, hp,
        filter_orderedInsert p a _ hs, ih]

theorem insertionSort_id_of_all :
    ∀ (l : List MCue), (∀ x ∈ l, ∀ y ∈ l, cueLE x y) →
      List.insertionSort cueLE l = l
  | [], _ => rfl
  | a :: l, h => by
    have ih := insertionSort_id_of_all l
      (fun x hx y hy => h x (by simp [hx]) y (by simp [hy]))
    have ha : ∀ x ∈ l, cueLE a x := fun x hx => h a (by simp) x (by simp [hx])
    simp [List.insertionSort, ih, orderedInsert_all a l ha]

theorem specChosen_congr {o1 o2 : MergeOptions} (j : Nat) (pf : ParsedFile)
    (h : o1.perFileOffsetMs j = o2.perFileOffsetMs j) :
    specChosen o1 j pf = specChosen o2 j pf := by
  unfold specChosen
  rw [h]

theorem specShift_congr {o1 o2 : MergeOptions} (files : List ParsedFile)
    (i : Nat) (h : ∀ j, j < i → o1.perFileOffsetMs j = o2.perFileOffsetMs j) :
    specShift o1 files i = specShift o2 files i := by
  unfold specShift
  exact Finset.sum_congr rfl
    (fun j hj => specChosen_congr j _ (h j (Finset.mem_range.mp hj)))

theorem specMergedFrom_congr {o1 o2 : MergeOptions} (files : List ParsedFile)
    (h : ∀ j, o1.perFileOffsetMs j = o2.perFileOffsetMs j) :
    ∀ (fs : List ParsedFile) (k : Nat),
      specMergedFrom o1 files k fs = specMergedFrom o2 files k fs
  | [], _ => rfl
  | pf :: rest, k => by
    have ih := specMergedFrom_congr files h rest (k + 1)
    have hsh : specShift o1 files k = specShift o2 files k :=
      specShift_congr files k (fun j _ => h j)
    simp [specMergedFrom, ih, hsh]

theorem shiftSeg_filter (i k : Nat) (s : Int) :
    ∀ (l : List Cue),
      ((l.filterMap (shiftCue? k s)).filter (fun c => c.sourceFileIndex == i)) =
        if k = i then l.filterMap (shiftCue? k s) else []
  | [] => by by_cases hk : k = i <;> simp [hk]
  | c :: l => by
    have ih := shiftSeg_filter i k s l
    by_cases hk : k = i
    · subst hk
      rcases c with ⟨_ | s1, _ | e1, t⟩ <;>
        simp [shiftCue?, List.filterMap_cons, List.filter_cons, ih]
    · rcases c with ⟨_ | s1, _ | e1, t⟩ <;>
        simp [shiftCue?, List.filterMap_cons, List.filter_cons, hk, ih,
          beq_iff_eq]

theorem specMergedFrom_filter_eq (o1 o2 : MergeOptions)
    (files : List ParsedFile) (i : Nat)
    (hsh : specShift o1 files i = specShift o2 files i) :
    ∀ (fs : List ParsedFile) (k : Nat),
      (specMergedFrom o1 files k fs).filter (fun c => c.sourceFileIndex == i) =
        (specMergedFrom o2 files k fs).filter (fun c => c.sourceFileIndex == i)
  | [], _ => rfl
  | pf :: rest, k => by
    have ih := specMergedFrom_filter_eq o1 o2 files i hsh rest (k + 1)
    by_cases hk : k = i
    · subst hk
      simp [specMergedFrom, List.filter_append, shiftSeg_filter, hsh, ih]
    · simp [specMergedFrom, List.filter_append, shiftSeg_filter, hk, ih]

/-- Claim C2: adding a perFileOffsetMs override for file i changes only the
shifts applied to later files; the cues of file i itself appear in the
merged output with exactly the same startMs and endMs as with no override
for file i, stated as equality of the sublists of merged cues stamped with
sourceFileIndex i. -/
theorem mergeSeq_override_frame (files : List ParsedFile)
    (opts : MergeOptions) (i : Nat) (v : Int) :
    ((mergeParsedFilesSequential files
        ⟨fun j => if j = i then some v else opts.perFileOffsetMs j,
         opts.useEffectiveEndMs, opts.sortFinalByStart⟩).mergedCues.filter
      (fun c => c.sourceFileIndex == i)) =
    ((mergeParsedFilesSequential files
        ⟨fun j => if j = i then none else opts.perFileOffsetMs j,
         opts.useEffectiveEndMs, opts.sortFinalByStart⟩).mergedCues.filter
      (fun c => c.sourceFileIndex == i)) := by
  set o1 : MergeOptions :=
    ⟨fun j => if j = i then some v else opts.perFileOffsetMs j,
     opts.useEffectiveEndMs, opts.sortFinalByStart⟩ with ho1
  set o2 : MergeOptions :=
    ⟨fun j => if j = i then none else opts.perFileOffsetMs j,
     opts.useEffectiveEndMs, opts.sortFinalByStart⟩ with ho2
  by_cases h : files = []
  · subst h
    rfl
  · have hne : files.isEmpty = false := by simp [h]
    have hsh : specShift o1 files i = specShift o2 files i := by
      refine specShift_congr files i (fun j hj => ?_)
      have hji : ¬ j = i := by omega
      simp [ho1, ho2, hji]
    have hfil : (specMerged o1 files).filter (fun c => c.sourceFileIndex == i) =
        (specMerged o2 files).filter (fun c => c.sourceFileIndex == i) :=
      specMergedFrom_filter_eq o1 o2 files i hsh files 0
    rw [mergeSeq_eq files o1 hne, mergeSeq_eq files o2 hne]
    show (mergedAfterSort files o1).filter _ = (mergedAfterSort files o2).filter _
    rw [mergedAfterSort_eq, mergedAfterSort_eq]
    by_cases hs : opts.sortFinalByStart.getD false
    · have hs1 : o1.sortFinalByStart.getD false = true := by simp [ho1, hs]
      have hs2 : o2.sortFinalByStart.getD false = true := by simp [ho2, hs]
      simp only [hs1, hs2, if_true]
      rw [filter_insertionSort, filter_insertionSort, hfil]
    · have hs1 : o1.sortFinalByStart.getD false = false := by
        simpa [ho1] using hs
      have hs2 : o2.sortFinalByStart.getD false = false := by
        simpa [ho2] using hs
      simp only [hs1, hs2, Bool.false_eq_true, if_false]
      exact hfil

/-- Claim C4: with sortFinalByStart set the merged cues are non-decreasing
in startMs and form a stable sort of the file-then-cue flattening — a
permutation of it in which cues with equal startMs keep their relative
order (stated per start value through filter) — while with sortFinalByStart
false or absent they are exactly the flattening in file order and, within
each file, input cue order. -/
theorem mergeSeq_sorting (files : List ParsedFile) (opts : MergeOptions) :
    ((mergeParsedFilesSequential files
        ⟨opts.perFileOffsetMs, opts.useEffectiveEndMs, some true⟩).mergedCues.Pairwise cueLE
     ∧ (mergeParsedFilesSequential files
        ⟨opts.perFileOffsetMs, opts.useEffectiveEndMs, some true⟩).mergedCues.Perm
         (specMerged opts files)
     ∧ ∀ v : Int,
        ((mergeParsedFilesSequential files
          ⟨opts.perFileOffsetMs, opts.useEffectiveEndMs, some true⟩).mergedCues.filter
            (fun c => c.startMs == v)) =
          (specMerged opts files).filter (fun c => c.startMs == v))
    ∧ (mergeParsedFilesSequential files
        ⟨opts.perFileOffsetMs, opts.useEffectiveEndMs, some false⟩).mergedCues =
        specMerged opts files
    ∧ (mergeParsedFilesSequential files
        ⟨opts.perFileOffsetMs, opts.useEffectiveEndMs, none⟩).mergedCues =
        specMerged opts files := by
  set oT : MergeOptions :=
    ⟨opts.perFileOffsetMs, opts.useEffectiveEndMs, some true⟩ with hoT
  set oF : MergeOptions :=
    ⟨opts.perFileOffsetMs, opts.useEffectiveEndMs, some false⟩ with hoF
  set oN : MergeOptions :=
    ⟨opts.perFileOffsetMs, opts.useEffectiveEndMs, none⟩ with hoN
  have hcT : specMerged oT files = specMerged opts files :=
    @specMergedFrom_congr oT opts files (fun _ => rfl) files 0
  have hcF : specMerged oF files = specMerged opts files :=
    @specMergedFrom_congr oF opts files (fun _ => rfl) files 0
  have hcN : specMerged oN files = specMerged opts files :=
    @specMergedFrom_congr oN opts files (fun _ => rfl) files 0
  by_cases h : files = []
  · subst h
    simp [mergeParsedFilesSequential, specMerged, specMergedFrom]
  · have hne : files.isEmpty = false := by simp [h]
    have hT : (mergeParsedFilesSequential files oT).mergedCues =
        List.insertionSort cueLE (specMerged oT files) := by
      rw [mergeSeq_eq files oT hne]
      show mergedAfterSort files oT = _
      rw [mergedAfterSort_eq]
      simp [hoT]
    have hF : (mergeParsedFilesSequential files oF).mergedCues =
        specMerged oF files := by
      rw [mergeSeq_eq files oF hne]
      show mergedAfterSort files oF = _
      rw [mergedAfterSort_eq]
      simp [hoF]
    have hN : (mergeParsedFilesSequential files oN).mergedCues =
        specMerged oN files := by
      rw [mergeSeq_eq files oN hne]
      show mergedAfterSort files oN = _
      rw [mergedAfterSort_eq]
      simp [hoN]
    refine ⟨⟨?_, ?_, ?_⟩, ?_, ?_⟩
    · rw [hT]
      exact List.sorted_insertionSort cueLE _
    · rw [hT, ← hcT]
      exact List.perm_insertionSort cueLE _
    · intro v
      rw [hT, filter_insertionSort, hcT]
      refine insertionSort_id_of_all _ (fun x hx y hy => ?_)
      have hxv : x.startMs = v := by
        have := (List.mem_filter.mp hx).2
        simpa [beq_iff_eq] using this
      have hyv : y.startMs = v := by
        have := (List.mem_filter.mp hy).2
        simpa [beq_iff_eq] using this
      show x.startMs ≤ y.startMs
      rw [hxv, hyv]
    · rw [hF, hcF]
    · rw [hN, hcN]

/-- Claim C7 counterexample: the parser trims every line before appending
it, so a text line with surrounding whitespace is not appended verbatim:
the parsed block holds the trimmed text, not the raw line. -/
theorem permissiveParse_verbatim_counterexample :
    ((permissiveParseSrt c7Content).map (fun b => b.texts) = [["hello"]])
    ∧ ¬ ((permissiveParseSrt c7Content).map (fun b => b.texts) =
          [["  hello  "]]) := by
  constructor <;> decide

/-- Claim C7 (amended): once a block exists and is past its timestamp (the
parser is reading text and no longer expecting a timestamp), any line whose
trimmed form is not an index line is appended to the text lines as its
trimmed content — lines that are empty after trimming are preserved as
empty strings — and nothing else changes: the block is not ended. -/
theorem pstep_appends_text (s : PState) (raw : String)
    (h1 : s.currentBlock.isSome = true) (h2 : s.isReadingText = true)
    (h3 : s.expectingTimestamp = false)
    (h4 : isIndexLine (jsTrim raw) = false) :
    pstep s raw = { s with textLines := s.textLines ++ [jsTrim raw] } := by
  simp [pstep, h1, h2, h3, h4]

theorem pstep_appends_text_witness :
    c7State.currentBlock.isSome = true
    ∧ pstep c7State "  x  " =
        { c7State with textLines := c7State.textLines ++ [jsTrim "  x  "] } :=
  ⟨rfl, pstep_appends_text c7State "  x  " rfl rfl rfl (by decide)⟩

theorem processBlock_mergedBlocks (fname : String) (st : MState)
    (curEnd : Int) (b : SrtBlock) :
    ∃ ts, (processBlock fname st curEnd b).1.mergedBlocks =
      st.mergedBlocks ++ [⟨st.globalIndex, ts, emittedTexts b⟩] := by
  cases hsh : shiftTimestampLine b.tsRaw st.cumulativeMs with
  | none =>
    exact ⟨makeFallbackTimestamp (st.lastMergedEndMs.getD 0) st.cumulativeMs 200,
      by simp [processBlock, hsh, emittedTexts]⟩
  | some line =>
    exact ⟨line, by simp [processBlock, hsh, emittedTexts]⟩

theorem processBlock_totalInput (fname : String) (st : MState)
    (curEnd : Int) (b : SrtBlock) :
    (processBlock fname st curEnd b).1.totalInputCues = st.totalInputCues := by
  cases hsh : shiftTimestampLine b.tsRaw st.cumulativeMs <;>
    simp [processBlock, hsh]

theorem processBlock_fallback_inv (fname : String) (st : MState)
    (curEnd : Int) (b : SrtBlock)
    (hinv : st.parseIssuesCount =
      (st.diagnostics.filter (fun d => d.action == DiagAction.fallback)).length) :
    (processBlock fname st curEnd b).1.parseIssuesCount =
      ((processBlock fname st curEnd b).1.diagnostics.filter
        (fun d => d.action == DiagAction.fallback)).length := by
  cases hsh : shiftTimestampLine b.tsRaw st.cumulativeMs with
  | none =>
    simp [processBlock, hsh, hinv, List.filter_append]
  | some line =>
    by_cases hn : normalizeWs line ≠ normalizeWs b.tsRaw <;>
      simp [processBlock, hsh, hn, hinv, List.filter_append]

theorem foldBlocks_texts (fname : String) :
    ∀ (blocks : List SrtBlock) (p : MState × Int),
      ((blocks.foldl (fun q b => processBlock fname q.1 q.2 b) p).1).mergedBlocks.map
          (fun ob => ob.texts) =
        p.1.mergedBlocks.map (fun ob => ob.texts) ++ blocks.map emittedTexts
  | [], p => by simp
  | b :: blocks, p => by
    obtain ⟨ts, hts⟩ := processBlock_mergedBlocks fname p.1 p.2 b
    have ih := foldBlocks_texts fname blocks (processBlock fname p.1 p.2 b)
    simp only [List.foldl_cons, List.map_cons]
    rw [ih, hts]
    simp

theorem foldBlocks_length (fname : String) :
    ∀ (blocks : List SrtBlock) (p : MState × Int),
      ((blocks.foldl (fun q b => processBlock fname q.1 q.2 b) p).1).mergedBlocks.length =
        p.1.mergedBlocks.length + blocks.length
  | [], p => by simp
  | b :: blocks, p => by
    obtain ⟨ts, hts⟩ := processBlock_mergedBlocks fname p.1 p.2 b
    have ih := foldBlocks_length fname blocks (processBlock fname p.1 p.2 b)
    simp only [List.foldl_cons]
    rw [ih, hts]
    simp only [List.length_append, List.length_cons, List.length_nil]
    omega

theorem foldBlocks_totalInput (fname : String) :
    ∀ (blocks : List SrtBlock) (p : MState × Int),
      ((blocks.foldl (fun q b => processBlock fname q.1 q.2 b) p).1).totalInputCues =
        p.1.totalInputCues
  | [], _ => rfl
  | b :: blocks, p => by
    have ih := foldBlocks_totalInput fname blocks (processBlock fname p.1 p.2 b)
    simp only [List.foldl_cons]
    rw [ih, processBlock_totalInput]

theorem foldBlocks_fallback_inv (fname : String) :
    ∀ (blocks : List SrtBlock) (p : MState × Int),
      p.1.parseIssuesCount =
        (p.1.diagnostics.filter (fun d => d.action == DiagAction.fallback)).length →
      ((blocks.foldl (fun q b => processBlock fname q.1 q.2 b) p).1).parseIssuesCount =
        (((blocks.foldl (fun q b => processBlock fname q.1 q.2 b) p).1).diagnostics.filter
          (fun d => d.action == DiagAction.fallback)).length
  | [], _, h => h
  | b :: blocks, p, h => by
    have ih := foldBlocks_fallback_inv fname blocks (processBlock fname p.1 p.2 b)
      (processBlock_fallback_inv fname p.1 p.2 b h)
    simpa only [List.foldl_cons] using ih

theorem mergeState_texts :
    ∀ (files : List NamedFile) (st : MState),
      (files.foldl processFile st).mergedBlocks.map (fun ob => ob.texts) =
        st.mergedBlocks.map (fun ob => ob.texts) ++
          ((files.map (fun f => permissiveParseSrt f.content)).flatten).map
            emittedTexts
  | [], st => by simp
  | f :: files, st => by
    have ih := mergeState_texts files (processFile st f)
    simp only [List.foldl_cons, List.map_cons, List.flatten_cons,
      List.map_append] at ih ⊢
    rw [ih]
    have h2 := foldBlocks_texts f.name (permissiveParseSrt f.content)
      ({ st with totalInputCues :=
          st.totalInputCues + (permissiveParseSrt f.content).length }, 0)
    have h3 : (processFile st f).mergedBlocks.map (fun ob => ob.texts) =
        st.mergedBlocks.map (fun ob => ob.texts) ++
          (permissiveParseSrt f.content).map emittedTexts := by
      simpa [processFile] using h2
    rw [h3, List.append_assoc]

theorem mergeState_output_eq_input :
    ∀ (files : List NamedFile) (st : MState),
      st.mergedBlocks.length = st.totalInputCues →
      (files.foldl processFile st).mergedBlocks.length =
        (files.foldl processFile st).totalInputCues
  | [], _, h => h
  | f :: files, st, h => by
    apply mergeState_output_eq_input files
    have h2 := foldBlocks_length f.name (permissiveParseSrt f.content)
      ({ st with totalInputCues :=
          st.totalInputCues + (permissiveParseSrt f.content).length }, 0)
    have h3 := foldBlocks_totalInput f.name (permissiveParseSrt f.content)
      ({ st with totalInputCues :=
          st.totalInputCues + (permissiveParseSrt f.content).length }, 0)
    simp only [processFile]
    rw [h2, h3]
    simp [h]

theorem mergeState_fallback_inv :
    ∀ (files : List NamedFile) (st : MState),
      st.parseIssuesCount =
        (st.diagnostics.filter (fun d => d.action == DiagAction.fallback)).length →
      (files.foldl processFile st).parseIssuesCount =
        ((files.foldl processFile st).diagnostics.filter
          (fun d => d.action == DiagAction.fallback)).length
  | [], _, h => h
  | f :: files, st, h => by
    apply mergeState_fallback_inv files
    have h2 := foldBlocks_fallback_inv f.name (permissiveParseSrt f.content)
      ({ st with totalInputCues :=
          st.totalInputCues + (permissiveParseSrt f.content).length }, 0) h
    simpa [processFile] using h2

/-- Claim C8 counterexample: a block whose parsed text lines are two empty
strings (a non-empty list of only-empty lines) is emitted with those empty
lines rather than the single placeholder line, so a serialized cue can have
literally empty content. -/
theorem mergeSrt_placeholder_counterexample :
    ((mergeSrtBlocks c8Files).map (fun ob => ob.texts) = [["", ""]])
    ∧ ¬ ((mergeSrtBlocks c8Files).map (fun ob => ob.texts) =
          [["[No text]"]]) := by
  constructor <;> decide

/-- Claim C8 (amended): a block is emitted with the single placeholder line
exactly when its parsed text-line list is empty; any other block, including
one whose lines are all empty strings, is emitted with its text lines
unchanged. -/
theorem mergeSrt_emitted_texts (files : List NamedFile) :
    (mergeSrtBlocks files).map (fun ob => ob.texts) =
      ((files.map (fun f => permissiveParseSrt f.content)).flatten).map
        emittedTexts := by
  simp only [mergeSrtBlocks, mergeSrtState]
  rw [mergeState_texts files initMState]
  simp [initMState]

/-- Claim C9: the raw-text merger emits exactly one output block per parsed
input block — no block is ever dropped — so totalOutputCues equals
totalInputCues, and the number of emitted blocks equals the number of
parsed blocks over all files. -/
theorem mergeSrt_counts (files : List NamedFile) :
    (mergeSrtFiles files).stats.totalOutputCues =
      (mergeSrtFiles files).stats.totalInputCues
    ∧ (mergeSrtBlocks files).length =
      ((files.map (fun f => permissiveParseSrt f.content)).flatten).length := by
  constructor
  · show (mergeSrtState files).mergedBlocks.length =
      (mergeSrtState files).totalInputCues
    exact mergeState_output_eq_input files initMState rfl
  · have h2 := congrArg List.length (mergeState_texts files initMState)
    simp only [List.length_map, List.length_append, initMState,
      List.length_nil, Nat.zero_add] at h2
    simpa [mergeSrtBlocks, mergeSrtState] using h2

/-- Claim C10: parseIssuesCount counts exactly the fallback diagnostics:
the counter is incremented exactly when a fallback diagnostic is
recorded. -/
theorem mergeSrt_parseIssues (files : List NamedFile) :
    (mergeSrtFiles files).stats.parseIssuesCount =
      ((mergeSrtFiles files).diagnostics.filter
        (fun d => d.action == DiagAction.fallback)).length := by
  show (mergeSrtState files).parseIssuesCount = _
  exact mergeState_fallback_inv files initMState rfl

end TranscriptMerger
